import Mathlib

/-!
Verification of the reference FFT implementation in `src/fft/fft.py`.

The Python code represents complex vectors as pairs of real numpy arrays and
complex matrices as pairs of real matrices.  We embed 1-D numpy arrays as
`List ℝ`, 2-D numpy arrays as `Mat` (a pair of dimensions together with an
entry function), and numpy exceptions as `Except String`.  Floating point
numbers are modelled as exact reals, so all equalities are exact.
-/

open scoped BigOperators

/-- The slice `a[::2]` of a 1-D array: every other element starting at 0. -/
def stride2 : List α → List α
  | [] => []
  | [a] => [a]
  | a :: _ :: rest => a :: stride2 rest

/-- A 2-D numpy array of reals: row and column counts together with an entry
function.  Values of `entry` outside the stated bounds are irrelevant. -/
structure Mat where
  rows : ℕ
  cols : ℕ
  entry : ℕ → ℕ → ℝ

/-- Unary negation of a 2-D array (`-A`). -/
def Mat.neg (M : Mat) : Mat :=
  ⟨M.rows, M.cols, fun i j => -(M.entry i j)⟩

/-- Transpose of a 2-D array (`A.T`). -/
def Mat.transpose (M : Mat) : Mat :=
  ⟨M.cols, M.rows, fun i j => M.entry j i⟩

/-- The rows of a 2-D array as a list of 1-D arrays (iteration / `[*A]`). -/
def Mat.rowsList (M : Mat) : List (List ℝ) :=
  (List.range M.rows).map fun i => (List.range M.cols).map fun j => M.entry i j

/-- The slice `A[:, :k]`: the first `k` columns. -/
def Mat.colsTake (M : Mat) (k : ℕ) : Mat :=
  ⟨M.rows, min k M.cols, M.entry⟩

/-- The slice `A[:, k:]`: all columns from `k` on. -/
def Mat.colsDrop (M : Mat) (k : ℕ) : Mat :=
  ⟨M.rows, M.cols - k, fun i j => M.entry i (j + k)⟩

/-- The column `A[:, j]` as a 1-D array; an out-of-range index raises. -/
def Mat.col (M : Mat) (j : ℕ) : Except String (List ℝ) :=
  if j < M.cols then
    Except.ok ((List.range M.rows).map fun i => M.entry i j)
  else
    Except.error "IndexError: index out of bounds"

/-- Model of `np.vstack` on a list of 1-D arrays: stacks them as the rows of a 2-D
array.  numpy raises on an empty argument list and on rows of differing
lengths. -/
def vstack (vs : List (List ℝ)) : Except String Mat :=
  match vs with
  | [] => Except.error "need at least one array to concatenate"
  | v :: rest =>
    if ∀ w ∈ rest, w.length = v.length then
      Except.ok ⟨(v :: rest).length, v.length, fun i j => ((v :: rest).getD i []).getD j 0⟩
    else
      Except.error "all the input array dimensions except for the concatenation axis must match exactly"

/-- Model of `np.matmul` on 2-D arrays; numpy raises when the inner dimensions
disagree. -/
noncomputable def matmul (A B : Mat) : Except String Mat :=
  if A.cols = B.rows then
    Except.ok ⟨A.rows, B.cols, fun i j => ∑ t ∈ Finset.range A.cols, A.entry i t * B.entry t j⟩
  else
    Except.error "matmul: input operand shapes are mismatched"

/-- Elementwise `+=` of two 2-D arrays; numpy raises when the shapes cannot
be broadcast (the program only ever adds arrays of identical shape). -/
noncomputable def madd (A B : Mat) : Except String Mat :=
  if A.rows = B.rows ∧ A.cols = B.cols then
    Except.ok ⟨A.rows, A.cols, fun i j => A.entry i j + B.entry i j⟩
  else
    Except.error "operands could not be broadcast together"

/-- A numpy elementwise binary operation on two 1-D arrays.  The program only
applies these to arrays of equal length; numpy raises otherwise (length-1
broadcasting never arises here). -/
noncomputable def ewise (f : ℝ → ℝ → ℝ) (a b : List ℝ) : Except String (List ℝ) :=
  if a.length = b.length then
    Except.ok (List.zipWith f a b)
  else
    Except.error "operands could not be broadcast together"

/-- Model of `inverse_fourier_matrix` (fft.py lines 14-33): the pair of real matrices
with entries `cos(2 pi c r / N)` and `-sin(2 pi c r / N)`; the loop writes
every entry of the initial `np.ones` matrices. -/
noncomputable def inverse_fourier_matrix (N : ℕ) : Mat × Mat :=
  (⟨N, N, fun r c => Real.cos (2 * Real.pi * c * r / N)⟩,
   ⟨N, N, fun r c => -Real.sin (2 * Real.pi * c * r / N)⟩)

/-- Model of `fft_recombine_coeffs` (fft.py lines 36-52): the twiddle coefficients,
two arrays of length `N // 2`. -/
noncomputable def fft_recombine_coeffs (N : ℕ) : List ℝ × List ℝ :=
  ((List.range (N / 2)).map fun n : ℕ => Real.cos (2 * Real.pi * (n : ℝ) * (((N : ℝ) - 1) / N)),
   (List.range (N / 2)).map fun n : ℕ => Real.sin (2 * Real.pi * (n : ℝ) * (((N : ℝ) - 1) / N)))

/-- Model of `complex_multiply` (fft.py lines 55-62): elementwise product of two
complex vectors given by separate real and imaginary parts. -/
noncomputable def complex_multiply (re_v1 im_v1 re_v2 im_v2 : List ℝ) :
    Except String (List ℝ × List ℝ) := do
  let p1 ← ewise (· * ·) re_v1 re_v2
  let p2 ← ewise (· * ·) im_v1 im_v2
  let re ← ewise (· - ·) p1 p2
  let p3 ← ewise (· * ·) re_v1 im_v2
  let p4 ← ewise (· * ·) im_v1 re_v2
  let im ← ewise (· + ·) p3 p4
  Except.ok (re, im)

/-- Model of `complex_matvecs_mul` (fft.py lines 65-97): complex matrix times a batch
of complex vectors via two real matmuls.  The real result columns are the
first `len(re_v)` columns of the accumulated product, the imaginary result
columns the rest. -/
noncomputable def complex_matvecs_mul (re_M im_M : Mat) (re_v im_v : List (List ℝ)) :
    Except String (Mat × Mat) := do
  if re_v.length = im_v.length then
    let vim ← vstack im_v
    let neg_im_v := vim.neg
    let b1 ← vstack (re_v ++ im_v)
    let re_M_batch := b1.transpose
    let b2 ← vstack (neg_im_v.rowsList ++ re_v)
    let im_M_batch := b2.transpose
    let p1 ← matmul re_M re_M_batch
    let p2 ← matmul im_M im_M_batch
    let acc ← madd p1 p2
    Except.ok (acc.colsTake re_v.length, acc.colsDrop re_v.length)
  else
    Except.error "Number of real and imaginary vectors must match."

/-- Model of `my_dft` (fft.py lines 100-117): DFT of a batch of vectors.  An empty
batch yields `(None, None)`, modelled as `(none, none)`. -/
noncomputable def my_dft (re_v im_v : List (List ℝ)) :
    Except String (Option Mat × Option Mat) := do
  if re_v.length = im_v.length then
    if 0 < re_v.length then
      let fft_size := (re_v.headD []).length
      let F := inverse_fourier_matrix fft_size
      let rs ← complex_matvecs_mul F.1 F.2 re_v im_v
      Except.ok (some rs.1, some rs.2)
    else
      Except.ok (none, none)
  else
    Except.error "Number of real and imaginary vectors must match."

/-- Model of `my_fft` (fft.py lines 120-169): one level of radix-2 decimation in time
over the direct DFT of the even- and odd-indexed halves. -/
noncomputable def my_fft (y : List ℂ) : Except String (List ℂ) := do
  let re_y_even := stride2 (y.map Complex.re)
  let re_y_odd := stride2 ((y.map Complex.re).drop 1)
  let im_y_even := stride2 (y.map Complex.im)
  let im_y_odd := stride2 ((y.map Complex.im).drop 1)
  let res ← my_dft [re_y_even, re_y_odd] [im_y_even, im_y_odd]
  match res with
  | (some re_results, some im_results) => do
    let re_even ← re_results.col 0
    let re_odd ← re_results.col 1
    let im_even ← im_results.col 0
    let im_odd ← im_results.col 1
    let (re_w, im_w) := fft_recombine_coeffs y.length
    let (re_tmp, im_tmp) ← complex_multiply re_w im_w re_odd im_odd
    let re_lower ← ewise (· + ·) re_even re_tmp
    let im_lower ← ewise (· + ·) im_even im_tmp
    let re_upper ← ewise (· - ·) re_even re_tmp
    let im_upper ← ewise (· - ·) im_even im_tmp
    let re_result := re_lower ++ re_upper
    let im_result := im_lower ++ im_upper
    if re_result.length = im_result.length then
      Except.ok (List.zipWith (fun (a b : ℝ) => (a : ℂ) + Complex.I * (b : ℂ))
        re_result im_result)
    else
      Except.error "operands could not be broadcast together"
  | _ => Except.error "TypeError: NoneType object is not subscriptable"

/-- The direct Fourier transform used as the trusted check in the main block
of fft.py (lines 188-191): `re = ReF @ y`, `im = ImF @ y`,
`result = re + 1j * im`, i.e. multiplication of `y` by `ReF + i ImF`. -/
noncomputable def direct_ft (y : List ℂ) : List ℂ :=
  (List.range y.length).map fun k =>
    (∑ j ∈ Finset.range y.length,
        ((inverse_fourier_matrix y.length).1.entry k j : ℂ) * y.getD j 0)
      + Complex.I * ∑ j ∈ Finset.range y.length,
        ((inverse_fourier_matrix y.length).2.entry k j : ℂ) * y.getD j 0

/-- Spec-level single-vector complex matrix-vector product, following the
spec formulas `Re(M v) = ReM Re(v) - ImM Im(v)` and
`Im(M v) = ImM Re(v) + ReM Im(v)`. -/
noncomputable def single_complex_matvec (re_M im_M : Mat) (re_x im_x : List ℝ) :
    List ℝ × List ℝ :=
  ((List.range re_M.rows).map fun i =>
      (∑ t ∈ Finset.range re_M.cols, re_M.entry i t * re_x.getD t 0)
        - ∑ t ∈ Finset.range im_M.cols, im_M.entry i t * im_x.getD t 0,
   (List.range im_M.rows).map fun i =>
      (∑ t ∈ Finset.range im_M.cols, im_M.entry i t * re_x.getD t 0)
        + ∑ t ∈ Finset.range re_M.cols, re_M.entry i t * im_x.getD t 0)

/-- The complex DFT sum used as the mathematical normal form in the proofs:
`cdft N z k = sum over j < N of exp(-2 pi i j k / N) * z j`. -/
noncomputable def cdft (N : ℕ) (z : ℕ → ℂ) (k : ℕ) : ℂ :=
  ∑ j ∈ Finset.range N,
    Complex.exp (-((2 * Real.pi * j * k / N : ℝ) : ℂ) * Complex.I) * z j

/-! ### List helper lemmas -/

theorem stride2_length : ∀ l : List α, (stride2 l).length = (l.length + 1) / 2
  | [] => by simp [stride2]
  | [_] => by simp [stride2]
  | _ :: _ :: rest => by
    simp only [stride2, List.length_cons, stride2_length rest]
    omega

theorem stride2_getD (d : α) : ∀ (l : List α) (n : ℕ),
    (stride2 l).getD n d = l.getD (2 * n) d
  | [], n => by simp [stride2]
  | [a], n => by
    cases n with
    | zero => rfl
    | succ m =>
      have h2 : 2 * (m + 1) = 2 * m + 1 + 1 := by ring
      simp [stride2, h2]
  | a :: b :: rest, n => by
    cases n with
    | zero => rfl
    | succ m =>
      have h2 : 2 * (m + 1) = 2 * m + 1 + 1 := by ring
      simp only [stride2, List.getD_cons_succ, h2]
      exact stride2_getD d rest m

theorem getD_drop_one (d : α) (l : List α) (n : ℕ) :
    (l.drop 1).getD n d = l.getD (n + 1) d := by
  cases l with
  | nil => simp
  | cons a t => simp

theorem getD_map_re (y : List ℂ) (n : ℕ) :
    (y.map Complex.re).getD n 0 = (y.getD n 0).re := by
  induction y generalizing n with
  | nil => simp
  | cons a t ih =>
    cases n with
    | zero => rfl
    | succ m => simpa using ih m

theorem getD_map_im (y : List ℂ) (n : ℕ) :
    (y.map Complex.im).getD n 0 = (y.getD n 0).im := by
  induction y generalizing n with
  | nil => simp
  | cons a t ih =>
    cases n with
    | zero => rfl
    | succ m => simpa using ih m

theorem getD_map_range (g : ℕ → α) (d : α) (n j : ℕ) (h : j < n) :
    ((List.range n).map g).getD j d = g j := by
  rw [List.getD_eq_getElem?_getD, List.getElem?_map, List.getElem?_range h]
  rfl

theorem sum_range_even_odd (f : ℕ → ℂ) : ∀ n : ℕ,
    ∑ j ∈ Finset.range (2 * n), f j
      = (∑ t ∈ Finset.range n, f (2 * t)) + ∑ t ∈ Finset.range n, f (2 * t + 1)
  | 0 => by simp
  | n + 1 => by
    have h2 : 2 * (n + 1) = 2 * n + 1 + 1 := by ring
    rw [h2]
    simp only [Finset.sum_range_succ, sum_range_even_odd f n]
    ring

theorem zipWith_map_range (f : α → β → γ) (g : ℕ → α) (g' : ℕ → β) (n : ℕ) :
    List.zipWith f ((List.range n).map g) ((List.range n).map g')
      = (List.range n).map fun i => f (g i) (g' i) := by
  rw [List.zipWith_map, List.zipWith_same]

/-! ### Evaluation lemmas for the numpy operations -/

theorem except_bind_ok (a : α) (f : α → Except ε β) :
    (Except.ok a >>= f) = f a := rfl

theorem except_bind_error (e : ε) (f : α → Except ε β) :
    ((Except.error e : Except ε α) >>= f) = Except.error e := rfl

theorem vstack_ok (N : ℕ) (vs : List (List ℝ)) (hne : vs ≠ [])
    (h : ∀ w ∈ vs, w.length = N) :
    vstack vs = Except.ok ⟨vs.length, N, fun i j => (vs.getD i []).getD j 0⟩ := by
  match vs with
  | [] => exact absurd rfl hne
  | v :: rest =>
    have hv : v.length = N := h v (List.mem_cons_self v rest)
    have hrest : ∀ w ∈ rest, w.length = v.length := by
      intro w hw
      rw [h w (List.mem_cons_of_mem _ hw), hv]
    simp only [vstack]
    rw [if_pos hrest, hv]

theorem vstack_ragged (v : List ℝ) (rest : List (List ℝ))
    (h : ¬ ∀ w ∈ rest, w.length = v.length) :
    vstack (v :: rest)
      = Except.error "all the input array dimensions except for the concatenation axis must match exactly" := by
  simp only [vstack]
  rw [if_neg h]

/-- Successful evaluation of `complex_matvecs_mul` on a well-shaped batch:
the result is a pair of `N x k` matrices whose `j`-th columns hold the real
and imaginary parts of the complex product `M * v_j`. -/
theorem complex_matvecs_mul_ok (N k : ℕ) (re_M im_M : Mat) (re_v im_v : List (List ℝ))
    (hMc : re_M.cols = N) (hMc' : im_M.cols = N) (hMrr : im_M.rows = re_M.rows)
    (hek : re_v.length = k) (hik : im_v.length = k) (hk : 1 ≤ k)
    (hre : ∀ v ∈ re_v, v.length = N) (him : ∀ v ∈ im_v, v.length = N) :
    ∃ R S : Mat,
      complex_matvecs_mul re_M im_M re_v im_v = Except.ok (R, S)
        ∧ R.rows = re_M.rows ∧ R.cols = k ∧ S.rows = re_M.rows ∧ S.cols = k
        ∧ (∀ i j, j < k →
            R.entry i j
              = (∑ t ∈ Finset.range N, re_M.entry i t * (re_v.getD j []).getD t 0)
                - ∑ t ∈ Finset.range N, im_M.entry i t * (im_v.getD j []).getD t 0)
        ∧ (∀ i j, j < k →
            S.entry i j
              = (∑ t ∈ Finset.range N, im_M.entry i t * (re_v.getD j []).getD t 0)
                + ∑ t ∈ Finset.range N, re_M.entry i t * (im_v.getD j []).getD t 0) := by
  have hlen : re_v.length = im_v.length := by rw [hek, hik]
  have him_ne : im_v ≠ [] := by
    intro h0; rw [h0] at hik; simp at hik; omega
  have hre_ne : re_v ≠ [] := by
    intro h0; rw [h0] at hek; simp at hek; omega
  have hv1 := vstack_ok N im_v him_ne him
  have hb1ne : re_v ++ im_v ≠ [] := by
    intro h0
    exact hre_ne (List.append_eq_nil.mp h0).1
  have hb1 := vstack_ok N (re_v ++ im_v) hb1ne (by
    intro w hw
    rcases List.mem_append.mp hw with h | h
    · exact hre w h
    · exact him w h)
  have hb2ne : ((List.range im_v.length).map fun i =>
      (List.range N).map fun j => -((im_v.getD i []).getD j 0)) ++ re_v ≠ [] := by
    intro h0
    exact hre_ne (List.append_eq_nil.mp h0).2
  have hb2 := vstack_ok N (((List.range im_v.length).map fun i =>
      (List.range N).map fun j => -((im_v.getD i []).getD j 0)) ++ re_v) hb2ne (by
    intro w hw
    rcases List.mem_append.mp hw with h | h
    · rcases List.mem_map.mp h with ⟨i, _, hi⟩
      rw [← hi]
      simp
    · exact hre w h)
  rw [complex_matvecs_mul]
  rw [if_pos hlen, hv1]
  simp only [except_bind_ok, Mat.neg, Mat.rowsList]
  rw [hb1]
  simp only [except_bind_ok]
  rw [hb2]
  simp only [except_bind_ok, Mat.transpose, matmul]
  rw [if_pos hMc, if_pos hMc']
  simp only [except_bind_ok, madd]
  have hcond : re_M.rows = im_M.rows ∧ (re_v ++ im_v).length
      = ((List.map (fun i => List.map (fun j => -(im_v.getD i []).getD j 0) (List.range N))
          (List.range im_v.length)) ++ re_v).length := by
    refine ⟨hMrr.symm, ?_⟩
    simp [Nat.add_comm]
  rw [if_pos hcond]
  simp only [except_bind_ok]
  refine ⟨_, _, rfl, ?_, ?_, ?_, ?_, ?_, ?_⟩
  · simp [Mat.colsTake]
  · simp only [Mat.colsTake, List.length_append, hek, hik]
    omega
  · simp [Mat.colsDrop]
  · simp only [Mat.colsDrop, List.length_append, hek, hik]
    omega
  · intro i j hj
    have hjre : j < re_v.length := by omega
    have hjim : j < im_v.length := by omega
    simp only [Mat.colsTake]
    rw [List.getD_append _ _ _ _ hjre]
    rw [List.getD_append _ _ _ _ (by simpa using hjim)]
    rw [getD_map_range _ _ _ _ hjim, hMc, hMc']
    have hsum : ∑ x ∈ Finset.range N, im_M.entry i x *
        ((List.map (fun t => -(im_v.getD j []).getD t 0) (List.range N)).getD x 0)
        = -∑ x ∈ Finset.range N, im_M.entry i x * (im_v.getD j []).getD x 0 := by
      rw [← Finset.sum_neg_distrib]
      refine Finset.sum_congr rfl fun x hx => ?_
      rw [getD_map_range _ _ _ _ (Finset.mem_range.mp hx)]
      ring
    rw [hsum]
    ring
  · intro i j hj
    simp only [Mat.colsDrop]
    have hL : (List.map (fun i => List.map (fun j => -(im_v.getD i []).getD j 0) (List.range N))
        (List.range im_v.length)).length = re_v.length := by
      simp [hek, hik]
    rw [List.getD_append_right _ _ _ _ (by omega : re_v.length ≤ j + re_v.length)]
    rw [List.getD_append_right _ _ _ _ (by rw [hL]; omega : (List.map (fun i =>
        List.map (fun j => -(im_v.getD i []).getD j 0) (List.range N))
        (List.range im_v.length)).length ≤ j + re_v.length)]
    rw [hL, Nat.add_sub_cancel, hMc, hMc']
    ring

/-- Successful evaluation of `my_dft` on a nonempty well-shaped batch. -/
theorem my_dft_ok (N k : ℕ) (re_v im_v : List (List ℝ))
    (hek : re_v.length = k) (hik : im_v.length = k) (hk : 1 ≤ k)
    (hre : ∀ v ∈ re_v, v.length = N) (him : ∀ v ∈ im_v, v.length = N) :
    ∃ R S : Mat,
      my_dft re_v im_v = Except.ok (some R, some S)
        ∧ R.rows = N ∧ R.cols = k ∧ S.rows = N ∧ S.cols = k
        ∧ (∀ i j, j < k →
            R.entry i j
              = (∑ t ∈ Finset.range N,
                  (inverse_fourier_matrix N).1.entry i t * (re_v.getD j []).getD t 0)
                - ∑ t ∈ Finset.range N,
                  (inverse_fourier_matrix N).2.entry i t * (im_v.getD j []).getD t 0)
        ∧ (∀ i j, j < k →
            S.entry i j
              = (∑ t ∈ Finset.range N,
                  (inverse_fourier_matrix N).2.entry i t * (re_v.getD j []).getD t 0)
                + ∑ t ∈ Finset.range N,
                  (inverse_fourier_matrix N).1.entry i t * (im_v.getD j []).getD t 0) := by
  have hlen : re_v.length = im_v.length := by rw [hek, hik]
  have hpos : 0 < re_v.length := by omega
  have hhead : (re_v.headD []).length = N := by
    match re_v, hpos with
    | r0 :: rest, _ => exact hre r0 (List.mem_cons_self r0 rest)
  obtain ⟨R, S, hEq, hRr, hRc, hSr, hSc, hRe, hSe⟩ :=
    complex_matvecs_mul_ok N k (inverse_fourier_matrix N).1 (inverse_fourier_matrix N).2
      re_v im_v rfl rfl rfl hek hik hk hre him
  refine ⟨R, S, ?_, by simpa using hRr, hRc, by simpa using hSr, hSc, hRe, hSe⟩
  rw [my_dft, if_pos hlen, if_pos hpos, hhead]
  simp only [hEq, except_bind_ok]

/-! ### Complex exponential lemmas -/

theorem exp_real_mul_I (x : ℝ) :
    Complex.exp ((x : ℂ) * Complex.I)
      = (Real.cos x : ℂ) + (Real.sin x : ℂ) * Complex.I := by
  rw [Complex.exp_mul_I, ← Complex.ofReal_cos, ← Complex.ofReal_sin]

theorem exp_neg_real_mul_I (x : ℝ) :
    Complex.exp (-(x : ℂ) * Complex.I)
      = (Real.cos x : ℂ) - (Real.sin x : ℂ) * Complex.I := by
  have h1 : -(x : ℂ) * Complex.I = ((-x : ℝ) : ℂ) * Complex.I := by push_cast; ring
  rw [h1, exp_real_mul_I, Real.cos_neg, Real.sin_neg]
  push_cast
  ring

theorem exp_neg_two_pi_nat_mul_I (t : ℕ) :
    Complex.exp (-((2 * Real.pi * t : ℝ) : ℂ) * Complex.I) = 1 := by
  rw [show -((2 * Real.pi * t : ℝ) : ℂ) * Complex.I
      = ((-(t : ℤ) : ℤ) : ℂ) * (2 * (Real.pi : ℂ) * Complex.I) by push_cast; ring,
    Complex.exp_int_mul_two_pi_mul_I]

theorem exp_neg_pi_mul_I :
    Complex.exp (-((Real.pi : ℝ) : ℂ) * Complex.I) = -1 := by
  rw [show -((Real.pi : ℝ) : ℂ) * Complex.I = -((Real.pi : ℂ) * Complex.I) by ring,
    Complex.exp_neg, Complex.exp_pi_mul_I]
  norm_num

/-- The twiddle coefficient stored by `fft_recombine_coeffs`,
`cos(2 pi n (N-1)/N) + i sin(2 pi n (N-1)/N)`, equals `exp(-2 pi i n / N)`. -/
theorem twiddle_eq (N n : ℕ) (hN : (N : ℝ) ≠ 0) :
    (Real.cos (2 * Real.pi * n * (((N : ℝ) - 1) / N)) : ℂ)
      + Complex.I * (Real.sin (2 * Real.pi * n * (((N : ℝ) - 1) / N)) : ℂ)
    = Complex.exp (-((2 * Real.pi * n / N : ℝ) : ℂ) * Complex.I) := by
  have h1 : (Real.cos (2 * Real.pi * n * (((N : ℝ) - 1) / N)) : ℂ)
      + Complex.I * (Real.sin (2 * Real.pi * n * (((N : ℝ) - 1) / N)) : ℂ)
      = Complex.exp (((2 * Real.pi * n * (((N : ℝ) - 1) / N) : ℝ) : ℂ) * Complex.I) := by
    rw [exp_real_mul_I]
    ring
  have hθ : (2 * Real.pi * n * (((N : ℝ) - 1) / N) : ℝ)
      = 2 * Real.pi * n - 2 * Real.pi * n / N := by
    field_simp
    ring
  rw [h1, hθ]
  rw [show (((2 * Real.pi * ↑n - 2 * Real.pi * ↑n / ↑N : ℝ)) : ℂ) * Complex.I
      = ((n : ℤ) : ℂ) * (2 * (Real.pi : ℂ) * Complex.I)
        + -((2 * Real.pi * n / N : ℝ) : ℂ) * Complex.I by push_cast; ring]
  rw [Complex.exp_add, Complex.exp_int_mul_two_pi_mul_I, one_mul]

/-- Radix-2 decimation in time, lower half: the size-`2h` DFT at frequency
`k` is the even-index DFT plus the twiddle times the odd-index DFT. -/
theorem cdft_split_lower (h k : ℕ) (hh : h ≠ 0) (z : ℕ → ℂ) :
    cdft (2 * h) z k
      = cdft h (fun t => z (2 * t)) k
        + Complex.exp (-((2 * Real.pi * k / (2 * h : ℕ) : ℝ) : ℂ) * Complex.I)
          * cdft h (fun t => z (2 * t + 1)) k := by
  have hR : ((h : ℝ)) ≠ 0 := Nat.cast_ne_zero.mpr hh
  simp only [cdft]
  rw [sum_range_even_odd
    (fun j => Complex.exp (-((2 * Real.pi * j * k / (2 * h : ℕ) : ℝ) : ℂ) * Complex.I) * z j) h]
  congr 1
  · refine Finset.sum_congr rfl fun t ht => ?_
    rw [show (2 * Real.pi * ((2 * t : ℕ) : ℝ) * k / ((2 * h : ℕ) : ℝ) : ℝ)
        = 2 * Real.pi * t * k / h by push_cast; field_simp; ring]
  · rw [Finset.mul_sum]
    refine Finset.sum_congr rfl fun t ht => ?_
    rw [show (2 * Real.pi * ((2 * t + 1 : ℕ) : ℝ) * k / ((2 * h : ℕ) : ℝ) : ℝ)
        = (2 * Real.pi * t * k / h) + (2 * Real.pi * k / ((2 * h : ℕ) : ℝ)) by
      push_cast; field_simp; ring]
    rw [Complex.ofReal_add, neg_add, add_mul, Complex.exp_add]
    ring

/-- Radix-2 decimation in time, upper half: the size-`2h` DFT at frequency
`k + h` is the even-index DFT minus the twiddle times the odd-index DFT. -/
theorem cdft_split_upper (h k : ℕ) (hh : h ≠ 0) (z : ℕ → ℂ) :
    cdft (2 * h) z (k + h)
      = cdft h (fun t => z (2 * t)) k
        - Complex.exp (-((2 * Real.pi * k / (2 * h : ℕ) : ℝ) : ℂ) * Complex.I)
          * cdft h (fun t => z (2 * t + 1)) k := by
  have hR : ((h : ℝ)) ≠ 0 := Nat.cast_ne_zero.mpr hh
  simp only [cdft]
  rw [sum_range_even_odd
    (fun j => Complex.exp (-((2 * Real.pi * j * (k + h : ℕ) / (2 * h : ℕ) : ℝ) : ℂ)
      * Complex.I) * z j) h]
  rw [sub_eq_add_neg, Finset.mul_sum, ← Finset.sum_neg_distrib]
  congr 1
  · refine Finset.sum_congr rfl fun t ht => ?_
    rw [show (2 * Real.pi * ((2 * t : ℕ) : ℝ) * ((k + h : ℕ) : ℝ) / ((2 * h : ℕ) : ℝ) : ℝ)
        = (2 * Real.pi * t * k / h) + (2 * Real.pi * t) by push_cast; field_simp; ring]
    rw [Complex.ofReal_add, neg_add, add_mul, Complex.exp_add, exp_neg_two_pi_nat_mul_I,
      mul_one]
  · refine Finset.sum_congr rfl fun t ht => ?_
    rw [show (2 * Real.pi * ((2 * t + 1 : ℕ) : ℝ) * ((k + h : ℕ) : ℝ) / ((2 * h : ℕ) : ℝ) : ℝ)
        = ((2 * Real.pi * t * k / h) + (2 * Real.pi * t))
          + ((2 * Real.pi * k / ((2 * h : ℕ) : ℝ)) + Real.pi) by
      push_cast; field_simp; ring]
    rw [Complex.ofReal_add, Complex.ofReal_add, Complex.ofReal_add, neg_add, neg_add,
      neg_add, add_mul, add_mul, add_mul, Complex.exp_add, Complex.exp_add, Complex.exp_add,
      exp_neg_two_pi_nat_mul_I, exp_neg_pi_mul_I]
    ring

/-- A pair of real DFT sums (as produced by the batched matmuls against
`inverse_fourier_matrix`) assembles into the complex DFT sum. -/
theorem dft_pair_to_exp (N k : ℕ) (zr zi : ℕ → ℝ) :
    ((∑ t ∈ Finset.range N, Real.cos (2 * Real.pi * t * k / N) * zr t
        - ∑ t ∈ Finset.range N, -Real.sin (2 * Real.pi * t * k / N) * zi t : ℝ) : ℂ)
      + Complex.I * ((∑ t ∈ Finset.range N, -Real.sin (2 * Real.pi * t * k / N) * zr t
        + ∑ t ∈ Finset.range N, Real.cos (2 * Real.pi * t * k / N) * zi t : ℝ) : ℂ)
    = cdft N (fun t => (zr t : ℂ) + Complex.I * (zi t : ℂ)) k := by
  simp only [cdft]
  have hpt : ∀ t ∈ Finset.range N,
      Complex.exp (-((2 * Real.pi * t * k / N : ℝ) : ℂ) * Complex.I)
        * ((zr t : ℂ) + Complex.I * (zi t : ℂ))
      = ((Real.cos (2 * Real.pi * t * k / N) : ℂ) * (zr t : ℂ)
          - (-(Real.sin (2 * Real.pi * t * k / N) : ℂ)) * (zi t : ℂ))
        + Complex.I * ((-(Real.sin (2 * Real.pi * t * k / N) : ℂ)) * (zr t : ℂ)
          + (Real.cos (2 * Real.pi * t * k / N) : ℂ) * (zi t : ℂ)) := by
    intro t ht
    rw [exp_neg_real_mul_I]
    ring_nf
    rw [Complex.I_sq]
    ring
  rw [Finset.sum_congr rfl hpt]
  simp only [Finset.sum_add_distrib, Finset.sum_sub_distrib, ← Finset.mul_sum]
  push_cast
  ring

/-- Recombining real and imaginary parts inside `cdft` gives back the
original complex sequence. -/
theorem cdft_re_im (N k : ℕ) (z : ℕ → ℂ) :
    cdft N (fun t => ((z t).re : ℂ) + Complex.I * ((z t).im : ℂ)) k = cdft N z k := by
  simp only [cdft]
  refine Finset.sum_congr rfl fun t ht => ?_
  congr 1
  rw [mul_comm Complex.I _, Complex.re_add_im]

/-- The trusted direct Fourier transform is the complex DFT sum. -/
theorem direct_ft_entry (N : ℕ) (y : List ℂ) (k : ℕ) :
    (∑ j ∈ Finset.range N,
        ((inverse_fourier_matrix N).1.entry k j : ℂ) * y.getD j 0)
      + Complex.I * ∑ j ∈ Finset.range N,
        ((inverse_fourier_matrix N).2.entry k j : ℂ) * y.getD j 0
    = cdft N (fun j => y.getD j 0) k := by
  simp only [cdft, inverse_fourier_matrix]
  rw [Finset.mul_sum, ← Finset.sum_add_distrib]
  refine Finset.sum_congr rfl fun j hj => ?_
  rw [exp_neg_real_mul_I]
  push_cast
  ring

theorem col_ok (M : Mat) (j : ℕ) (hj : j < M.cols) :
    M.col j = Except.ok ((List.range M.rows).map fun i => M.entry i j) := by
  rw [Mat.col, if_pos hj]

/-- Evaluation of `complex_multiply` on four arrays of equal length `n`. -/
theorem complex_multiply_ok (n : ℕ) (a b c d : ℕ → ℝ) :
    complex_multiply ((List.range n).map a) ((List.range n).map b)
        ((List.range n).map c) ((List.range n).map d)
      = Except.ok ((List.range n).map fun i => a i * c i - b i * d i,
          (List.range n).map fun i => a i * d i + b i * c i) := by
  simp [complex_multiply, ewise, zipWith_map_range, except_bind_ok]

theorem ewise_map_range (f : ℝ → ℝ → ℝ) (g g' : ℕ → ℝ) (n : ℕ) :
    ewise f ((List.range n).map g) ((List.range n).map g')
      = Except.ok ((List.range n).map fun i => f (g i) (g' i)) := by
  rw [ewise, if_pos (by simp), zipWith_map_range]

/-- Butterfly assembly, lower half: real-pair arithmetic matches complex
arithmetic. -/
theorem butterfly_lower (a b c d u v : ℝ) :
    ((a + (u * c - v * d) : ℝ) : ℂ) + Complex.I * ((b + (u * d + v * c) : ℝ) : ℂ)
      = (((a : ℂ) + Complex.I * (b : ℂ))
          + ((u : ℂ) + Complex.I * (v : ℂ)) * ((c : ℂ) + Complex.I * (d : ℂ))) := by
  push_cast
  ring_nf
  rw [Complex.I_sq]
  ring

/-- Butterfly assembly, upper half. -/
theorem butterfly_upper (a b c d u v : ℝ) :
    ((a - (u * c - v * d) : ℝ) : ℂ) + Complex.I * ((b - (u * d + v * c) : ℝ) : ℂ)
      = (((a : ℂ) + Complex.I * (b : ℂ))
          - ((u : ℂ) + Complex.I * (v : ℂ)) * ((c : ℂ) + Complex.I * (d : ℂ))) := by
  push_cast
  ring_nf
  rw [Complex.I_sq]
  ring

/-- Main lemma: `my_fft` on any vector of even length computes the direct Fourier
transform exactly. -/
theorem my_fft_eval (h : ℕ) (y : List ℂ) (hlen : y.length = 2 * h) :
    my_fft y = Except.ok (direct_ft y) := by
  have e_re_len : (stride2 (y.map Complex.re)).length = h := by
    rw [stride2_length, List.length_map, hlen]; omega
  have e_im_len : (stride2 (y.map Complex.im)).length = h := by
    rw [stride2_length, List.length_map, hlen]; omega
  have o_re_len : (stride2 ((y.map Complex.re).drop 1)).length = h := by
    rw [stride2_length, List.length_drop, List.length_map, hlen]; omega
  have o_im_len : (stride2 ((y.map Complex.im).drop 1)).length = h := by
    rw [stride2_length, List.length_drop, List.length_map, hlen]; omega
  obtain ⟨R, S, hDft, hRr, hRc, hSr, hSc, hRe, hSe⟩ :=
    my_dft_ok h 2
      [stride2 (y.map Complex.re), stride2 ((y.map Complex.re).drop 1)]
      [stride2 (y.map Complex.im), stride2 ((y.map Complex.im).drop 1)]
      rfl rfl (by omega)
      (by
        intro v hv
        rcases List.mem_cons.mp hv with h1 | h1
        · rw [h1]; exact e_re_len
        · rcases List.mem_cons.mp h1 with h2 | h2
          · rw [h2]; exact o_re_len
          · simp at h2)
      (by
        intro v hv
        rcases List.mem_cons.mp hv with h1 | h1
        · rw [h1]; exact e_im_len
        · rcases List.mem_cons.mp h1 with h2 | h2
          · rw [h2]; exact o_im_len
          · simp at h2)
  rw [my_fft]
  simp only [hDft, except_bind_ok]
  rw [col_ok R 0 (by rw [hRc]; omega), col_ok R 1 (by rw [hRc]; omega),
    col_ok S 0 (by rw [hSc]; omega), col_ok S 1 (by rw [hSc]; omega)]
  simp only [except_bind_ok, hRr, hSr]
  rw [hlen]
  rw [show fft_recombine_coeffs (2 * h)
      = ((List.range h).map fun n : ℕ =>
            Real.cos (2 * Real.pi * (n : ℝ) * ((((2 * h : ℕ) : ℝ) - 1) / ((2 * h : ℕ) : ℝ))),
         (List.range h).map fun n : ℕ =>
            Real.sin (2 * Real.pi * (n : ℝ) * ((((2 * h : ℕ) : ℝ) - 1) / ((2 * h : ℕ) : ℝ))))
    from by rw [fft_recombine_coeffs, Nat.mul_div_cancel_left h (by omega)]]
  rw [complex_multiply_ok]
  simp only [except_bind_ok]
  rw [ewise_map_range, ewise_map_range, ewise_map_range, ewise_map_range]
  simp only [except_bind_ok]
  rw [if_pos (by simp)]
  congr 1
  rw [List.zipWith_append _ _ _ _ _ (by simp)]
  rw [zipWith_map_range, zipWith_map_range]
  have hsplit : List.range (2 * h) = List.range h ++ (List.range h).map fun x => h + x := by
    rw [show 2 * h = h + h by omega, List.range_add]
  simp only [direct_ft, hlen, hsplit, List.map_append, List.map_map]
  congr 1
  · refine List.map_congr_left fun k hk => ?_
    have hkh : k < h := List.mem_range.mp hk
    have hne : h ≠ 0 := by omega
    rw [butterfly_lower]
    rw [direct_ft_entry (2 * h) y k, cdft_split_lower h k hne]
    rw [hRe k 0 (by omega), hRe k 1 (by omega), hSe k 0 (by omega), hSe k 1 (by omega)]
    simp only [List.getD_cons_zero, List.getD_cons_succ, stride2_getD, getD_drop_one,
      getD_map_re, getD_map_im, inverse_fourier_matrix]
    rw [dft_pair_to_exp h k (fun t => (y.getD (2 * t) 0).re) (fun t => (y.getD (2 * t) 0).im),
      dft_pair_to_exp h k (fun t => (y.getD (2 * t + 1) 0).re)
        (fun t => (y.getD (2 * t + 1) 0).im),
      twiddle_eq (2 * h) k (Nat.cast_ne_zero.mpr (by omega)),
      cdft_re_im h k (fun t => y.getD (2 * t) 0),
      cdft_re_im h k (fun t => y.getD (2 * t + 1) 0)]
  · refine List.map_congr_left fun k hk => ?_
    have hkh : k < h := List.mem_range.mp hk
    have hne : h ≠ 0 := by omega
    simp only [Function.comp_apply]
    rw [butterfly_upper]
    rw [direct_ft_entry (2 * h) y (h + k), Nat.add_comm h k, cdft_split_upper h k hne]
    rw [hRe k 0 (by omega), hRe k 1 (by omega), hSe k 0 (by omega), hSe k 1 (by omega)]
    simp only [List.getD_cons_zero, List.getD_cons_succ, stride2_getD, getD_drop_one,
      getD_map_re, getD_map_im, inverse_fourier_matrix]
    rw [dft_pair_to_exp h k (fun t => (y.getD (2 * t) 0).re) (fun t => (y.getD (2 * t) 0).im),
      dft_pair_to_exp h k (fun t => (y.getD (2 * t + 1) 0).re)
        (fun t => (y.getD (2 * t + 1) 0).im),
      twiddle_eq (2 * h) k (Nat.cast_ne_zero.mpr (by omega)),
      cdft_re_im h k (fun t => y.getD (2 * t) 0),
      cdft_re_im h k (fun t => y.getD (2 * t + 1) 0)]

/-! ### Error propagation lemmas -/

theorem complex_matvecs_mul_vstack_error (re_M im_M : Mat) (re_v im_v : List (List ℝ))
    (hlen : re_v.length = im_v.length) (e : String)
    (he : vstack im_v = Except.error e) :
    complex_matvecs_mul re_M im_M re_v im_v = Except.error e := by
  rw [complex_matvecs_mul, if_pos hlen, he, except_bind_error]

theorem complex_matvecs_mul_b1_error (re_M im_M : Mat) (re_v im_v : List (List ℝ))
    (hlen : re_v.length = im_v.length) (M1 : Mat)
    (hv1 : vstack im_v = Except.ok M1) (e : String)
    (he : vstack (re_v ++ im_v) = Except.error e) :
    complex_matvecs_mul re_M im_M re_v im_v = Except.error e := by
  rw [complex_matvecs_mul, if_pos hlen, hv1]
  simp only [except_bind_ok, he, except_bind_error]

theorem complex_matvecs_mul_mm1_error (re_M im_M : Mat) (re_v im_v : List (List ℝ))
    (hlen : re_v.length = im_v.length) (M1 B1 B2 : Mat)
    (hv1 : vstack im_v = Except.ok M1)
    (hb1 : vstack (re_v ++ im_v) = Except.ok B1)
    (hb2 : vstack (M1.neg.rowsList ++ re_v) = Except.ok B2) (e : String)
    (hmm : matmul re_M B1.transpose = Except.error e) :
    complex_matvecs_mul re_M im_M re_v im_v = Except.error e := by
  rw [complex_matvecs_mul, if_pos hlen, hv1]
  simp only [except_bind_ok, hb1, hb2, hmm, except_bind_error]

theorem my_dft_error (re_v im_v : List (List ℝ)) (hlen : re_v.length = im_v.length)
    (hpos : 0 < re_v.length) (e : String)
    (he : complex_matvecs_mul (inverse_fourier_matrix (re_v.headD []).length).1
        (inverse_fourier_matrix (re_v.headD []).length).2 re_v im_v = Except.error e) :
    my_dft re_v im_v = Except.error e := by
  rw [my_dft, if_pos hlen, if_pos hpos]
  simp only [he, except_bind_error]

theorem my_fft_dft_error (y : List ℂ) (e : String)
    (he : my_dft [stride2 (y.map Complex.re), stride2 ((y.map Complex.re).drop 1)]
        [stride2 (y.map Complex.im), stride2 ((y.map Complex.im).drop 1)]
      = Except.error e) :
    my_fft y = Except.error e := by
  rw [my_fft]
  simp only [he, except_bind_error]

/-- The direct Fourier transform is linear. -/
theorem direct_ft_linear (a b : ℂ) (y1 y2 : List ℂ) (hlen : y1.length = y2.length) :
    direct_ft (List.zipWith (fun u v => a * u + b * v) y1 y2)
      = List.zipWith (fun u v => a * u + b * v) (direct_ft y1) (direct_ft y2) := by
  have hl : (List.zipWith (fun u v => a * u + b * v) y1 y2).length = y1.length := by
    rw [List.length_zipWith]
    omega
  have hgetD : ∀ j, j < y1.length →
      (List.zipWith (fun u v => a * u + b * v) y1 y2).getD j 0
        = a * y1.getD j 0 + b * y2.getD j 0 := by
    intro j hj
    rw [List.getD_eq_getElem _ _ (by rw [hl]; exact hj), List.getElem_zipWith,
      List.getD_eq_getElem _ _ hj, List.getD_eq_getElem _ _ (by omega)]
  simp only [direct_ft, hl, ← hlen]
  rw [zipWith_map_range]
  refine List.map_congr_left fun k hk => ?_
  have h1 : ∀ F : ℕ → ℝ,
      ∑ j ∈ Finset.range y1.length,
          (F j : ℂ) * (List.zipWith (fun u v => a * u + b * v) y1 y2).getD j 0
        = a * (∑ j ∈ Finset.range y1.length, (F j : ℂ) * y1.getD j 0)
          + b * ∑ j ∈ Finset.range y1.length, (F j : ℂ) * y2.getD j 0 := by
    intro F
    have hpt : ∀ j ∈ Finset.range y1.length,
        (F j : ℂ) * (List.zipWith (fun u v => a * u + b * v) y1 y2).getD j 0
          = a * ((F j : ℂ) * y1.getD j 0) + b * ((F j : ℂ) * y2.getD j 0) := by
      intro j hj
      rw [hgetD j (Finset.mem_range.mp hj)]
      ring
    rw [Finset.sum_congr rfl hpt, Finset.sum_add_distrib, ← Finset.mul_sum, ← Finset.mul_sum]
  rw [h1 (fun j => (inverse_fourier_matrix y1.length).1.entry k j),
    h1 (fun j => (inverse_fourier_matrix y1.length).2.entry k j)]
  ring

/-! ### Claim theorems -/

/-- C5: for every positive integer `N`, `inverse_fourier_matrix N` returns
two `N x N` real matrices with entries `ReF[r][c] = cos(2 pi c r / N)` and
`ImF[r][c] = -sin(2 pi c r / N)` for all `0 <= r, c < N`. -/
theorem C5_inverse_fourier_matrix_entries (N r c : ℕ) (_hN : 0 < N)
    (_hr : r < N) (_hc : c < N) :
    (inverse_fourier_matrix N).1.rows = N ∧ (inverse_fourier_matrix N).1.cols = N
      ∧ (inverse_fourier_matrix N).2.rows = N ∧ (inverse_fourier_matrix N).2.cols = N
      ∧ (inverse_fourier_matrix N).1.entry r c = Real.cos (2 * Real.pi * c * r / N)
      ∧ (inverse_fourier_matrix N).2.entry r c = -Real.sin (2 * Real.pi * c * r / N) :=
  ⟨rfl, rfl, rfl, rfl, rfl, rfl⟩

theorem C5_witness :
    (inverse_fourier_matrix 4).1.rows = 4 ∧ (inverse_fourier_matrix 4).1.cols = 4
      ∧ (inverse_fourier_matrix 4).2.rows = 4 ∧ (inverse_fourier_matrix 4).2.cols = 4
      ∧ (inverse_fourier_matrix 4).1.entry 1 2 = Real.cos (2 * Real.pi * 2 * 1 / 4)
      ∧ (inverse_fourier_matrix 4).2.entry 1 2 = -Real.sin (2 * Real.pi * 2 * 1 / 4) := by
  have h := C5_inverse_fourier_matrix_entries 4 1 2 (by decide) (by decide) (by decide)
  simpa using h

/-- C9: the matrices built by `inverse_fourier_matrix N` are symmetric:
`ReF[r][c] = ReF[c][r]` and `ImF[r][c] = ImF[c][r]` for `0 <= r, c < N`. -/
theorem C9_inverse_fourier_matrix_symm (N r c : ℕ) (_hN : 0 < N)
    (_hr : r < N) (_hc : c < N) :
    (inverse_fourier_matrix N).1.entry r c = (inverse_fourier_matrix N).1.entry c r
      ∧ (inverse_fourier_matrix N).2.entry r c = (inverse_fourier_matrix N).2.entry c r := by
  constructor <;>
    · simp only [inverse_fourier_matrix]
      ring_nf

theorem C9_witness :
    (inverse_fourier_matrix 3).1.entry 1 2 = (inverse_fourier_matrix 3).1.entry 2 1
      ∧ (inverse_fourier_matrix 3).2.entry 1 2 = (inverse_fourier_matrix 3).2.entry 2 1 :=
  C9_inverse_fourier_matrix_symm 3 1 2 (by decide) (by decide) (by decide)

/-- C6: for every even positive `N`, `fft_recombine_coeffs N` returns two
real sequences of length exactly `N / 2` with
`ReW[n] = cos(2 pi n (N-1)/N)` and `ImW[n] = sin(2 pi n (N-1)/N)` for all
`0 <= n < N / 2`. -/
theorem C6_fft_recombine_coeffs_entries (N : ℕ) (_hpos : 0 < N) (_heven : Even N) :
    (fft_recombine_coeffs N).1.length = N / 2
      ∧ (fft_recombine_coeffs N).2.length = N / 2
      ∧ (∀ n, n < N / 2 → (fft_recombine_coeffs N).1.getD n 0
          = Real.cos (2 * Real.pi * n * (((N : ℝ) - 1) / N)))
      ∧ ∀ n, n < N / 2 → (fft_recombine_coeffs N).2.getD n 0
          = Real.sin (2 * Real.pi * n * (((N : ℝ) - 1) / N)) := by
  refine ⟨by simp [fft_recombine_coeffs], by simp [fft_recombine_coeffs], ?_, ?_⟩
  · intro n hn
    simp only [fft_recombine_coeffs]
    rw [getD_map_range _ _ _ _ hn]
  · intro n hn
    simp only [fft_recombine_coeffs]
    rw [getD_map_range _ _ _ _ hn]

theorem C6_witness :
    (fft_recombine_coeffs 4).1.length = 4 / 2
      ∧ (fft_recombine_coeffs 4).2.length = 4 / 2
      ∧ (∀ n, n < 4 / 2 → (fft_recombine_coeffs 4).1.getD n 0
          = Real.cos (2 * Real.pi * n * (((4 : ℕ) - 1 : ℝ) / (4 : ℕ))))
      ∧ ∀ n, n < 4 / 2 → (fft_recombine_coeffs 4).2.getD n 0
          = Real.sin (2 * Real.pi * n * (((4 : ℕ) - 1 : ℝ) / (4 : ℕ))) :=
  C6_fft_recombine_coeffs_entries 4 (by decide) (by decide)

/-- C7: whenever the number of real vectors differs from the number of
imaginary vectors, both `complex_matvecs_mul` and `my_dft` fail with the
count-mismatch error and produce no result. -/
theorem C7_count_mismatch_error (re_M im_M : Mat) (re_v im_v : List (List ℝ))
    (hne : re_v.length ≠ im_v.length) :
    complex_matvecs_mul re_M im_M re_v im_v
        = Except.error "Number of real and imaginary vectors must match."
      ∧ my_dft re_v im_v
        = Except.error "Number of real and imaginary vectors must match." := by
  constructor
  · rw [complex_matvecs_mul, if_neg hne]
  · rw [my_dft, if_neg hne]

theorem C7_witness :
    complex_matvecs_mul ⟨1, 1, fun _ _ => 0⟩ ⟨1, 1, fun _ _ => 0⟩
        [[1], [2]] [[3], [4], [5]]
        = Except.error "Number of real and imaginary vectors must match."
      ∧ my_dft [[1], [2]] [[3], [4], [5]]
        = Except.error "Number of real and imaginary vectors must match." :=
  C7_count_mismatch_error _ _ [[1], [2]] [[3], [4], [5]] (by decide)

/-- C10: `my_dft` applied to an empty batch returns `(None, None)` rather
than raising an error or returning empty result sequences. -/
theorem C10_empty_batch_returns_none : my_dft [] [] = Except.ok (none, none) := rfl

/-- C1: for every power-of-two `N >= 2` and every complex input vector `y`
of length `N`, `my_fft y` equals the length-`N` DFT of `y`, i.e. the result
of multiplying `y` by the inverse Fourier matrix `ReF + i ImF`, exactly
under exact real arithmetic. -/
theorem C1_my_fft_computes_dft (m : ℕ) (y : List ℂ) (hm : 1 ≤ m)
    (hlen : y.length = 2 ^ m) :
    my_fft y = Except.ok (direct_ft y) := by
  refine my_fft_eval (2 ^ (m - 1)) y ?_
  rw [hlen, ← pow_succ']
  congr 1
  omega

theorem C1_witness :
    my_fft [1, Complex.I] = Except.ok (direct_ft [1, Complex.I]) :=
  C1_my_fft_computes_dft 1 [1, Complex.I] (by decide) (by decide)

/-- C8: `my_fft` is linear: for same-length even-length inputs and any
complex scalars `a`, `b`, the transform of `a y1 + b y2` is
`a my_fft(y1) + b my_fft(y2)`, exactly. -/
theorem C8_my_fft_linear (y1 y2 : List ℂ) (a b : ℂ)
    (hlen : y1.length = y2.length) (heven : Even y1.length) :
    ∃ r1 r2 : List ℂ,
      my_fft y1 = Except.ok r1 ∧ my_fft y2 = Except.ok r2
        ∧ my_fft (List.zipWith (fun u v => a * u + b * v) y1 y2)
            = Except.ok (List.zipWith (fun u v => a * u + b * v) r1 r2) := by
  obtain ⟨h, hh⟩ := heven
  have h1 : y1.length = 2 * h := by omega
  have h2 : y2.length = 2 * h := by omega
  have h3 : (List.zipWith (fun u v => a * u + b * v) y1 y2).length = 2 * h := by
    rw [List.length_zipWith]
    omega
  exact ⟨direct_ft y1, direct_ft y2, my_fft_eval h y1 h1, my_fft_eval h y2 h2,
    by rw [my_fft_eval h _ h3, direct_ft_linear a b y1 y2 hlen]⟩

theorem C8_witness :
    ∃ r1 r2 : List ℂ,
      my_fft [1, 0] = Except.ok r1 ∧ my_fft [0, 1] = Except.ok r2
        ∧ my_fft (List.zipWith (fun u v => 2 * u + 3 * v) [1, 0] [0, 1])
            = Except.ok (List.zipWith (fun u v => 2 * u + 3 * v) r1 r2) :=
  C8_my_fft_linear [1, 0] [0, 1] 2 3 rfl (by decide)

/-- C2 counterexample: on an empty batch (k = 0 real and imaginary vectors,
all trivially of matrix length), `complex_matvecs_mul` raises the numpy
concatenation error instead of returning the (empty) batch of results, so
the claim fails for k = 0. -/
theorem C2_counterexample :
    complex_matvecs_mul ⟨1, 1, fun _ _ => 0⟩ ⟨1, 1, fun _ _ => 0⟩
        ([] : List (List ℝ)) []
      = Except.error "need at least one array to concatenate" := rfl

/-- C2 (amended: for nonempty batches, k >= 1): `complex_matvecs_mul` on an
`N x N` matrix pair and `k` matching complex vectors of length `N` returns,
for each batch index `j` in submitted order, result columns equal to the
single-vector complex products `ReM Re(v_j) - ImM Im(v_j)` and
`ImM Re(v_j) + ReM Im(v_j)`. -/
theorem C2_batched_matches_single (N k : ℕ) (re_M im_M : Mat)
    (re_v im_v : List (List ℝ))
    (hMr : re_M.rows = N) (hMc : re_M.cols = N)
    (hMr' : im_M.rows = N) (hMc' : im_M.cols = N)
    (hek : re_v.length = k) (hik : im_v.length = k) (hk : 1 ≤ k)
    (hre : ∀ v ∈ re_v, v.length = N) (him : ∀ v ∈ im_v, v.length = N) :
    ∃ R S : Mat,
      complex_matvecs_mul re_M im_M re_v im_v = Except.ok (R, S)
        ∧ R.rows = N ∧ R.cols = k ∧ S.rows = N ∧ S.cols = k
        ∧ ∀ j, j < k → ∀ i, i < N →
            R.entry i j
              = (single_complex_matvec re_M im_M
                  (re_v.getD j []) (im_v.getD j [])).1.getD i 0
            ∧ S.entry i j
              = (single_complex_matvec re_M im_M
                  (re_v.getD j []) (im_v.getD j [])).2.getD i 0 := by
  obtain ⟨R, S, hEq, hRr, hRc, hSr, hSc, hRe, hSe⟩ :=
    complex_matvecs_mul_ok N k re_M im_M re_v im_v hMc hMc' (by rw [hMr', hMr])
      hek hik hk hre him
  refine ⟨R, S, hEq, by rw [hRr, hMr], hRc, by rw [hSr, hMr], hSc, ?_⟩
  intro j hj i hi
  constructor
  · rw [hRe i j hj]
    simp only [single_complex_matvec]
    rw [getD_map_range _ _ _ _ (by rw [hMr]; exact hi), hMc, hMc']
  · rw [hSe i j hj]
    simp only [single_complex_matvec]
    rw [getD_map_range _ _ _ _ (by rw [hMr']; exact hi), hMc, hMc']

theorem C2_witness :
    ∃ R S : Mat,
      complex_matvecs_mul ⟨1, 1, fun _ _ => 2⟩ ⟨1, 1, fun _ _ => 7⟩ [[3]] [[5]]
          = Except.ok (R, S)
        ∧ R.rows = 1 ∧ R.cols = 1 ∧ S.rows = 1 ∧ S.cols = 1
        ∧ ∀ j, j < 1 → ∀ i, i < 1 →
            R.entry i j
              = (single_complex_matvec ⟨1, 1, fun _ _ => 2⟩ ⟨1, 1, fun _ _ => 7⟩
                  ([[3]].getD j []) ([[5]].getD j [])).1.getD i 0
            ∧ S.entry i j
              = (single_complex_matvec ⟨1, 1, fun _ _ => 2⟩ ⟨1, 1, fun _ _ => 7⟩
                  ([[3]].getD j []) ([[5]].getD j [])).2.getD i 0 :=
  C2_batched_matches_single 1 1 ⟨1, 1, fun _ _ => 2⟩ ⟨1, 1, fun _ _ => 7⟩ [[3]] [[5]]
    rfl rfl rfl rfl rfl rfl (by decide) (by simp) (by simp)

/-- C3 counterexample: a zero-length input is not rejected: `my_fft` on the
empty vector returns the empty output instead of failing, so the
"zero/negative" part of the claim fails. -/
theorem C3_counterexample : my_fft ([] : List ℂ) = Except.ok [] := rfl

/-- C3 (amended: odd lengths only): for every input vector of odd length
(for example N = 3), `my_fft` fails with a size-mismatch error rather than
silently truncating or producing an output; a zero-length input instead
yields the empty output. -/
theorem C3_odd_length_errors (y : List ℂ) (hodd : Odd y.length) :
    ∃ msg, my_fft y = Except.error msg := by
  obtain ⟨h, hh⟩ := hodd
  have e_im_len : (stride2 (y.map Complex.im)).length = h + 1 := by
    rw [stride2_length, List.length_map, hh]
    omega
  have o_im_len : (stride2 ((y.map Complex.im).drop 1)).length = h := by
    rw [stride2_length, List.length_drop, List.length_map, hh]
    omega
  refine ⟨"all the input array dimensions except for the concatenation axis must match exactly",
    my_fft_dft_error y _ (my_dft_error
    [stride2 (y.map Complex.re), stride2 ((y.map Complex.re).drop 1)]
    [stride2 (y.map Complex.im), stride2 ((y.map Complex.im).drop 1)]
    rfl (by norm_num) _
    (complex_matvecs_mul_vstack_error _ _
      [stride2 (y.map Complex.re), stride2 ((y.map Complex.re).drop 1)]
      [stride2 (y.map Complex.im), stride2 ((y.map Complex.im).drop 1)]
      rfl _ ?_))⟩
  apply vstack_ragged
  intro hall
  have hcontr := hall (stride2 ((y.map Complex.im).drop 1)) (by simp)
  rw [o_im_len, e_im_len] at hcontr
  omega

theorem C3_witness : ∃ msg, my_fft [1, 1, 1] = Except.error msg :=
  C3_odd_length_errors [1, 1, 1] (by decide)

/-- C4: for every call to `complex_matvecs_mul` in which some vector's
length disagrees with the matrix dimension `N` (even when the real and
imaginary counts match), the operation fails with a size-mismatch error at
the offending numpy call. -/
theorem C4_bad_vector_length_errors (N : ℕ) (re_M im_M : Mat)
    (re_v im_v : List (List ℝ))
    (hMc : re_M.cols = N) (hlen : re_v.length = im_v.length)
    (hbad : (∃ v ∈ re_v, v.length ≠ N) ∨ ∃ v ∈ im_v, v.length ≠ N) :
    ∃ msg, complex_matvecs_mul re_M im_M re_v im_v = Except.error msg := by
  have hipos : 0 < im_v.length := by
    rcases hbad with ⟨v, hv, _⟩ | ⟨v, hv, _⟩
    · have := List.length_pos_of_mem hv
      omega
    · exact List.length_pos_of_mem hv
  have hrpos : 0 < re_v.length := by omega
  have hrne : re_v ≠ [] := by
    intro h0
    rw [h0] at hrpos
    simp at hrpos
  have hine : im_v ≠ [] := by
    intro h0
    rw [h0] at hipos
    simp at hipos
  obtain ⟨u0, urest, rfl⟩ := List.exists_cons_of_ne_nil hrne
  obtain ⟨v0, vrest, rfl⟩ := List.exists_cons_of_ne_nil hine
  by_cases hA : ∀ w ∈ vrest, w.length = v0.length
  case neg =>
    exact ⟨_, complex_matvecs_mul_vstack_error _ _ _ _ hlen _ (vstack_ragged v0 vrest hA)⟩
  case pos =>
  have hAll : ∀ w ∈ v0 :: vrest, w.length = v0.length := by
    intro w hw
    rcases List.mem_cons.mp hw with h1 | h1
    · rw [h1]
    · exact hA w h1
  have hv1 := vstack_ok v0.length (v0 :: vrest) (by simp) hAll
  by_cases hB : ∀ w ∈ urest ++ (v0 :: vrest), w.length = u0.length
  case neg =>
    have herr : vstack ((u0 :: urest) ++ (v0 :: vrest))
        = Except.error "all the input array dimensions except for the concatenation axis must match exactly" := by
      rw [List.cons_append]
      exact vstack_ragged u0 _ hB
    exact ⟨_, complex_matvecs_mul_b1_error _ _ _ _ hlen _ hv1 _ herr⟩
  case pos =>
  have hvL : v0.length = u0.length := hB v0 (List.mem_append_right _ (by simp))
  have hLne : u0.length ≠ N := by
    rcases hbad with ⟨v, hv, hne⟩ | ⟨v, hv, hne⟩
    · rcases List.mem_cons.mp hv with h1 | h1
      · rw [← h1]
        exact hne
      · intro hc
        exact hne ((hB v (List.mem_append_left _ h1)).trans hc)
    · intro hc
      exact hne ((hB v (List.mem_append_right _ hv)).trans hc)
  have hBall : ∀ w ∈ (u0 :: urest) ++ (v0 :: vrest), w.length = u0.length := by
    intro w hw
    rw [List.cons_append] at hw
    rcases List.mem_cons.mp hw with h1 | h1
    · rw [h1]
    · exact hB w h1
  have hb1 := vstack_ok u0.length ((u0 :: urest) ++ (v0 :: vrest)) (by simp) hBall
  set M1 : Mat :=
    ⟨(v0 :: vrest).length, v0.length, fun i j => ((v0 :: vrest).getD i []).getD j 0⟩
    with hM1
  have hb2cond : ∀ w ∈ M1.neg.rowsList ++ (u0 :: urest), w.length = u0.length := by
    intro w hw
    rcases List.mem_append.mp hw with h1 | h1
    · rcases List.mem_map.mp h1 with ⟨i, _, hi⟩
      rw [← hi]
      simp [hM1, Mat.neg, hvL]
    · rcases List.mem_cons.mp h1 with h2 | h2
      · rw [h2]
      · exact hB w (List.mem_append_left _ h2)
  have hb2 := vstack_ok u0.length (M1.neg.rowsList ++ (u0 :: urest))
    (by
      intro h0
      have h1 := (List.append_eq_nil.mp h0).2
      simp at h1)
    hb2cond
  have hmm : matmul re_M
      (Mat.transpose ⟨((u0 :: urest) ++ (v0 :: vrest)).length, u0.length,
        fun i j => (((u0 :: urest) ++ (v0 :: vrest)).getD i []).getD j 0⟩)
      = Except.error "matmul: input operand shapes are mismatched" := by
    simp only [matmul, Mat.transpose]
    rw [if_neg (show ¬ re_M.cols = u0.length from by
      rw [hMc]
      exact fun hc => hLne hc.symm)]
  exact ⟨_, complex_matvecs_mul_mm1_error _ _ _ _ hlen M1 _ _ hv1 hb1 hb2 _ hmm⟩

theorem C4_witness :
    ∃ msg, complex_matvecs_mul ⟨2, 2, fun _ _ => 0⟩ ⟨2, 2, fun _ _ => 0⟩
        [[1, 2, 3]] [[4, 5, 6]] = Except.error msg :=
  C4_bad_vector_length_errors 2 ⟨2, 2, fun _ _ => 0⟩ ⟨2, 2, fun _ _ => 0⟩
    [[1, 2, 3]] [[4, 5, 6]] rfl rfl
    (Or.inl ⟨[1, 2, 3], by simp, by decide⟩)
